import Mathlib

/-!
Verification development for the dirscribe summarization engine.

The Rust sources are shallowly embedded: strings are handled through their
character lists, `str::lines` / `str::split('\n')` / `str::trim` are modelled
by executable functions on `List Char`, the file system is made explicit by
passing the current file content into `write_summary_to_file` and returning
the new content, and the wall clock is made explicit by passing the RFC3339
timestamp string as a parameter.  Panics (integer underflow, out-of-bounds
indexing) are modelled by dedicated result constructors.
-/

namespace Dirscribe

/-- The opening sentinel token `[DIRSCRIBE]` as a character list. -/
def sentinelOpen : List Char := "[DIRSCRIBE]".data

/-- The closing sentinel token `[/DIRSCRIBE]` as a character list. -/
def sentinelClose : List Char := "[/DIRSCRIBE]".data

/-- Substring containment, modelling Rust's `str::contains` for a literal
pattern. -/
def containsSub (pat : List Char) : List Char → Bool
  | [] => pat.isPrefixOf []
  | c :: rest => pat.isPrefixOf (c :: rest) || containsSub pat rest

/-- Split a character list at every `'\n'`, keeping empty pieces, modelling
Rust's `str::split('\n')`.  Always returns at least one piece. -/
def splitNl : List Char → List (List Char)
  | [] => [[]]
  | c :: rest =>
    if c = '\n' then [] :: splitNl rest
    else
      match splitNl rest with
      | [] => [[c]]
      | l :: ls => (c :: l) :: ls

/-- Remove one trailing `'\r'`, as Rust's `str::lines` does on each
newline-terminated line. -/
def stripCr (l : List Char) : List Char :=
  if l.getLast? = some '\r' then l.dropLast else l

/-- Post-processing of the `'\n'`-split pieces performed by Rust's
`str::lines`: every newline-terminated piece loses one trailing `'\r'`, and a
final empty piece (from a trailing newline) is dropped. -/
def rustLinesAux : List (List Char) → List (List Char)
  | [] => []
  | [l] => if l.isEmpty then [] else [l]
  | l :: l' :: ls => stripCr l :: rustLinesAux (l' :: ls)

/-- Rust's `str::lines` on a character list. -/
def rustLines (s : List Char) : List (List Char) :=
  rustLinesAux (splitNl s)

/-- Join a list of lines with `'\n'`, modelling `Vec<&str>::join("\n")`. -/
def joinNl : List (List Char) → List Char
  | [] => []
  | [l] => l
  | l :: l' :: ls => l ++ '\n' :: joinNl (l' :: ls)

/-- Rust's `str::trim_start` restricted to the whitespace characters that
occur in this development's inputs. -/
def trimStartChars (l : List Char) : List Char :=
  l.dropWhile Char.isWhitespace

/-- Rust's `str::trim_end`. -/
def trimEndChars (l : List Char) : List Char :=
  (l.reverse.dropWhile Char.isWhitespace).reverse

/-- Rust's `str::trim`. -/
def trimChars (l : List Char) : List Char :=
  trimEndChars (trimStartChars l)

/-- `Vec::insert(n, a)`: insert `a` so that it ends up at index `n`. -/
def insertAt (n : Nat) (a : List Char) (l : List (List Char)) : List (List Char) :=
  l.take n ++ a :: l.drop n

/-- The file-name component of a path: everything after the last `'/'`
(`Path::file_name`). -/
def rustFileName (p : List Char) : List Char :=
  (p.reverse.takeWhile (· ≠ '/')).reverse

/-- `Path::extension`: the part of the file name after the last `'.'`, or
`none` when the name has no `'.'` or only a leading one. -/
def rustExtension (p : List Char) : Option (List Char) :=
  let name := rustFileName p
  let ext := name.reverse.takeWhile (· ≠ '.')
  if ext.length = name.length then none
  else if ext.length + 1 = name.length then none
  else some ext.reverse

/-- The extension string used by `check_summary`:
`path.extension().and_then(|e| e.to_str()).unwrap_or("")`. -/
def extensionStr (p : String) : String :=
  match rustExtension p.data with
  | some e => String.mk e
  | none => ""

/-- The suffix map consumed by `check_summary` and `get_summaries`:
extension ↦ (comment start, comment end), where the comment end `"single
line"` marks a line-prefix contract. -/
def SuffixMap := List (String × String × String)

/-- `HashMap::get` on the suffix map. -/
def mapGet (m : SuffixMap) (k : String) : Option (String × String) :=
  match List.find? (fun e => e.1 == k) m with
  | some e => some (e.2.1, e.2.2)
  | none => none

/-- `check_summary` from `src/summary.rs`: validates the structural comment
contract of a generated summary against the extension's suffix-map entry. -/
def check_summary (file_path : String) (s : String) (m : SuffixMap) : Bool :=
  match mapGet m (extensionStr file_path) with
  | some (cs, ce) =>
    let lines := splitNl (trimChars s.data)
    if lines.length < 4 then false
    else if ce ≠ "single line" then
      decide (trimChars (lines.getD 0 []) = cs.data) &&
      decide (trimChars (lines.getD 1 []) = sentinelOpen) &&
      decide (trimChars (lines.getD (lines.length - 2) []) = sentinelClose) &&
      decide (trimChars (lines.getD (lines.length - 1) []) = ce.data)
    else
      decide (trimChars (lines.getD 0 []) = cs.data) &&
      decide (trimChars (lines.getD 1 []) = cs.data ++ " [DIRSCRIBE]".data) &&
      decide (trimChars (lines.getD (lines.length - 2) []) = cs.data ++ " [/DIRSCRIBE]".data) &&
      decide (trimChars (lines.getD (lines.length - 1) []) = cs.data)
  | none => false

/-- `check_prefix` from `src/file_processing.rs`: every line starts (after
leading whitespace) with the comment marker inferred from the first line. -/
def check_prefix (s : String) : Bool :=
  let lines := splitNl s.data
  match lines with
  | [] => true
  | first :: _ =>
    let isHash := ['#'].isPrefixOf (trimStartChars first)
    lines.all (fun l => (if isHash then ['#'] else ['/', '/']).isPrefixOf (trimStartChars l))

/-- One step of the `(prev, current, next)` filter inside
`filter_dirscribe_sections`; `i` is the zero-based index of the current line
(the source's `line_number` equals `i + 1`). -/
def fdsGo (exclude : Bool) : Nat → Option (List Char) → Bool → List (List Char) → List (List Char)
  | _, _, _, [] => []
  | i, prev, inD, cur :: rest =>
    if (match rest.head? with
        | some n => decide (i + 1 < 3) && containsSub sentinelOpen n
        | none => false) then
      (if exclude then [] else [cur]) ++ fdsGo exclude (i + 1) (some cur) true rest
    else if (match prev with
        | some p => inD && containsSub sentinelClose p
        | none => false) then
      (if exclude then [] else [cur]) ++ fdsGo exclude (i + 1) (some cur) false rest
    else
      (if (if exclude then !inD else inD) then [cur] else []) ++
        fdsGo exclude (i + 1) (some cur) inD rest

/-- `filter_dirscribe_sections` from `src/file_processing.rs`. -/
def filter_dirscribe_sections (content : String) (exclude : Bool) : String :=
  let lines := rustLines content.data
  if lines.isEmpty then ""
  else String.mk (joinNl (fdsGo exclude 0 none false lines))

/-- `insert_timestamp` from `src/file_processing.rs`, with the RFC3339 local
timestamp passed explicitly.  The source computes `lines.len() - 2` on a
`usize`; on fewer than two lines this underflows and `Vec::insert` panics,
modelled by `none`. -/
def insert_timestamp (ts : String) (input : String) : Option String :=
  let lines := rustLines input.data
  if 2 ≤ lines.length then
    some (String.mk (joinNl (insertAt (lines.length - 2) ts.data lines)))
  else none

/-- The error message of `write_summary_to_file`. -/
def writeErrMsg : String :=
  "Summary is not a correctly formatted comment. (doesn't start with a comment char on every line or doesn't have starting or ending line with multi line comment enclosure)"

/-- Outcome of `write_summary_to_file`: a successful write of new file
content, an error return, or a panic. -/
inductive WriteResult
  | ok (newContent : String)
  | err (msg : String)
  | panicked
deriving DecidableEq

/-- `write_summary_to_file` from `src/file_processing.rs`, with the file
system made explicit: `content` is the file's current content and a
successful run returns the content written back. -/
def write_summary_to_file (ts : String) (file_path summary : String) (m : SuffixMap)
    (content : String) : WriteResult :=
  if check_summary file_path summary m || check_prefix summary then
    let processed := filter_dirscribe_sections content true
    match insert_timestamp ts summary with
    | none => .panicked
    | some summary_ts => .ok (summary_ts ++ "\n" ++ processed)
  else .err writeErrMsg

/-- The file content after a `write_summary_to_file` call: unchanged unless
the write succeeded. -/
def fileAfter (r : WriteResult) (old : String) : String :=
  match r with
  | .ok n => n
  | .err _ => old
  | .panicked => old

/-! ### The provider client and the retry loop of `UnifiedClient::chat` -/

/-- `MAX_RETRIES` from `src/summary.rs`. -/
def MAX_RETRIES : Nat := 6

/-- `INITIAL_BACKOFF_MS` from `src/summary.rs`. -/
def INITIAL_BACKOFF_MS : Nat := 1000

/-- `reqwest::StatusCode::is_success`. -/
def isSuccessStatus (st : Nat) : Bool := 200 ≤ st && st ≤ 299

/-- `reqwest::StatusCode::is_server_error`. -/
def isServerErrorStatus (st : Nat) : Bool := 500 ≤ st && st ≤ 599

/-- The fatal errors `UnifiedClient::chat` can bail with. -/
inductive ChatErr
  | maxRetriesInvalidSummary
  | parseFailed (msg : String)
  | nonRetriable (body : String)
  | maxRetriesLast (status : Nat) (body : String)
deriving DecidableEq

/-- The observable behaviour of one `chat` call: how many HTTP requests were
sent, which backoff sleeps were performed (in order, in milliseconds), and
the final result. -/
structure ChatRun where
  attempts : Nat
  sleeps : List Nat
  result : Except ChatErr String

/-- The retry loop of `UnifiedClient::chat` from `src/summary.rs`.  The
network environment is explicit: `status k` and `text k` are the HTTP status
and body of the response to the `k`-th request, and `parse k` is the result
of `parse_response` on that body.  `n` is the index of the next request,
`retries` and `backoffMs` are the loop's mutable counters. -/
def chatGo (status : Nat → Nat) (text : Nat → String) (parse : Nat → Except String String)
    (m : SuffixMap) (diffOnly : Bool) (filePath : String) (maxRetries : Nat)
    (n retries backoffMs : Nat) : ChatRun :=
  let st := status n
  if isSuccessStatus st then
    match parse n with
    | .ok content =>
      if diffOnly || check_summary filePath content m then
        ⟨1, [], .ok content⟩
      else if h : maxRetries ≤ retries then
        ⟨1, [], .error .maxRetriesInvalidSummary⟩
      else
        let r := chatGo status text parse m diffOnly filePath maxRetries
          (n + 1) (retries + 1) (backoffMs * 2)
        ⟨r.attempts + 1, backoffMs :: r.sleeps, r.result⟩
    | .error e =>
      if h : maxRetries ≤ retries then
        ⟨1, [], .error (.parseFailed e)⟩
      else
        let r := chatGo status text parse m diffOnly filePath maxRetries
          (n + 1) (retries + 1) (backoffMs * 2)
        ⟨r.attempts + 1, backoffMs :: r.sleeps, r.result⟩
  else if isServerErrorStatus st = false ∧ st ≠ 429 then
    ⟨1, [], .error (.nonRetriable (text n))⟩
  else if h : maxRetries ≤ retries then
    ⟨1, [], .error (.maxRetriesLast st (text n))⟩
  else
    let r := chatGo status text parse m diffOnly filePath maxRetries
      (n + 1) (retries + 1) (backoffMs * 2)
    ⟨r.attempts + 1, backoffMs :: r.sleeps, r.result⟩
termination_by maxRetries + 1 - retries
decreasing_by all_goals omega

/-- `UnifiedClient::chat`: the loop entered with `retries = 0` and
`backoff_ms = INITIAL_BACKOFF_MS`. -/
def chat (status : Nat → Nat) (text : Nat → String) (parse : Nat → Except String String)
    (m : SuffixMap) (diffOnly : Bool) (filePath : String) (maxRetries : Nat) : ChatRun :=
  chatGo status text parse m diffOnly filePath maxRetries 0 0 INITIAL_BACKOFF_MS

/-! ### `UnifiedClient::parse_response` -/

/-- The common message structure. -/
structure Message where
  role : String
  content : String

/-- Deepseek response schema (`DeepseekChoice`). -/
structure DeepseekChoice where
  message : Message

/-- Deepseek response schema (`DeepseekUsage`). -/
structure DeepseekUsage where
  total_tokens : Int

/-- Deepseek response schema (`DeepseekResponse`). -/
structure DeepseekResponse where
  choices : List DeepseekChoice
  usage : DeepseekUsage

/-- Anthropic response schema (`AnthropicContent`). -/
structure AnthropicContent where
  content_type : String
  message : String

/-- Anthropic response schema (`AnthropicUsage`). -/
structure AnthropicUsage where
  input_tokens : Int
  output_tokens : Int

/-- Anthropic response schema (`AnthropicResponse`). -/
structure AnthropicResponse where
  content : List AnthropicContent
  usage : AnthropicUsage

/-- Outcome of `parse_response`: a decoded reply, a serde decode error
(returned as `Err` and hence retryable in `chat`), or a panic from
out-of-bounds indexing (which is not an `Err` and escapes the retry loop). -/
inductive ParseResult
  | ok (content : String)
  | decodeError
  | indexPanic
deriving DecidableEq

/-- The Deepseek arm of `UnifiedClient::parse_response`: `serde_json::from_str`
is abstracted as the already-decoded optional value; on success the source
indexes `response.choices[0]`, which panics when `choices` is empty. -/
def parse_response_deepseek (decoded : Option DeepseekResponse) : ParseResult :=
  match decoded with
  | none => .decodeError
  | some r =>
    match r.choices with
    | [] => .indexPanic
    | c :: _ => .ok c.message.content

/-- The Anthropic arm of `UnifiedClient::parse_response`: the source indexes
`response.content[0]`, which panics when `content` is empty. -/
def parse_response_anthropic (decoded : Option AnthropicResponse) : ParseResult :=
  match decoded with
  | none => .decodeError
  | some r =>
    match r.content with
    | [] => .indexPanic
    | c :: _ => .ok c.message

/-! ### `get_summaries` -/

/-- `get_summaries` from `src/summary.rs`, with the environment explicit:
`clientRes` is the result of provider resolution plus `UnifiedClient::new`
(an `Err` aborts the whole call), and `chatOutcome fp` is the result of the
spawned task's `client.chat` call for file `fp`.  The source joins the task
handles in spawn order, pushing the summary on `Ok` and
`format!("Error: {}", e)` on `Err`, where the task wrapped the chat error as
`Error processing file {path}: {err}`. -/
def get_summaries (clientRes : Except String Unit)
    (chatOutcome : String → Except String String)
    (valid_files : List String) : Except String (List String) :=
  match clientRes with
  | .error e => .error e
  | .ok _ =>
    .ok (valid_files.map (fun fp =>
      match chatOutcome fp with
      | .ok content => content
      | .error e => "Error: " ++ ("Error processing file " ++ fp ++ ": " ++ e)))

/-! ### Line-splitting infrastructure lemmas -/

theorem splitNl_ne_nil (s : List Char) : splitNl s ≠ [] := by
  induction s with
  | nil => simp [splitNl]
  | cons c rest ih =>
    simp only [splitNl]
    split
    · simp
    · cases h : splitNl rest with
      | nil => simp
      | cons l ls => simp

theorem mem_splitNl_not_newline {s l : List Char} (h : l ∈ splitNl s) : '\n' ∉ l := by
  induction s generalizing l with
  | nil =>
    simp [splitNl] at h
    subst h; simp
  | cons c rest ih =>
    by_cases hc : c = '\n'
    · rw [splitNl, if_pos hc] at h
      rcases List.mem_cons.mp h with h | h
      · subst h; simp
      · exact ih h
    · rw [splitNl, if_neg hc] at h
      cases hs : splitNl rest with
      | nil => exact absurd hs (splitNl_ne_nil rest)
      | cons p ps =>
        rw [hs] at h
        rcases List.mem_cons.mp h with h | h
        · subst h
          intro hmem
          rcases List.mem_cons.mp hmem with h' | h'
          · exact hc h'.symm
          · exact ih (hs ▸ List.mem_cons_self p ps) h'
        · exact ih (hs ▸ List.mem_cons_of_mem p h)

theorem splitNl_eq_single {xs : List Char} (h : '\n' ∉ xs) : splitNl xs = [xs] := by
  induction xs with
  | nil => rfl
  | cons c rest ih =>
    have hc : ¬ c = '\n' := fun hc => h (hc ▸ List.mem_cons_self c rest)
    rw [splitNl, if_neg hc, ih (fun hm => h (List.mem_cons_of_mem c hm))]

theorem splitNl_append {xs ys : List Char} (h : '\n' ∉ xs) :
    splitNl (xs ++ '\n' :: ys) = xs :: splitNl ys := by
  induction xs with
  | nil => simp [splitNl]
  | cons c rest ih =>
    have hc : ¬ c = '\n' := fun hc => h (hc ▸ List.mem_cons_self c rest)
    rw [List.cons_append, splitNl, if_neg hc, ih (fun hm => h (List.mem_cons_of_mem c hm))]

theorem rustLinesAux_append (B qs : List (List Char)) (hq : qs ≠ []) :
    rustLinesAux (B ++ qs) = B.map stripCr ++ rustLinesAux qs := by
  induction B with
  | nil => simp
  | cons b B ih =>
    cases hBq : B ++ qs with
    | nil => exact absurd (List.append_eq_nil.mp hBq).2 hq
    | cons x xs =>
      rw [List.cons_append, hBq]
      show stripCr b :: rustLinesAux (x :: xs) = _
      rw [← hBq, ih]
      simp

theorem rustLinesAux_eq_self {Q : List (List Char)} (h1 : ∀ l ∈ Q, stripCr l = l)
    (h2 : Q.getLast? ≠ some []) : rustLinesAux Q = Q := by
  induction Q with
  | nil => rfl
  | cons q Q ih =>
    cases Q with
    | nil =>
      have hq : q ≠ [] := by
        intro hq
        exact h2 (by simp [hq])
      simp [rustLinesAux, List.isEmpty_iff, hq]
    | cons q' Q' =>
      show stripCr q :: rustLinesAux (q' :: Q') = _
      rw [h1 q (List.mem_cons_self q (q' :: Q')),
        ih (fun l hl => h1 l (List.mem_cons_of_mem q hl))
          (by rwa [List.getLast?_cons_cons] at h2)]

theorem joinNl_cons {l : List Char} {ls : List (List Char)} (h : ls ≠ []) :
    joinNl (l :: ls) = l ++ '\n' :: joinNl ls := by
  cases ls with
  | nil => exact absurd rfl h
  | cons a as => rfl

theorem splitNl_joinNl {Q : List (List Char)} (hne : Q ≠ []) (h : ∀ l ∈ Q, '\n' ∉ l) :
    splitNl (joinNl Q) = Q := by
  induction Q with
  | nil => exact absurd rfl hne
  | cons q Q ih =>
    cases Q with
    | nil => exact splitNl_eq_single (h q (List.mem_cons_self q []))
    | cons q' Q' =>
      rw [joinNl_cons (by simp), splitNl_append (h q (List.mem_cons_self q (q' :: Q'))),
        ih (by simp) (fun l hl => h l (List.mem_cons_of_mem q hl))]

theorem rustLines_joinNl {Q : List (List Char)} (h1 : ∀ l ∈ Q, '\n' ∉ l)
    (h2 : ∀ l ∈ Q, stripCr l = l) (h3 : Q.getLast? ≠ some []) :
    rustLines (joinNl Q) = Q := by
  cases Qe : Q with
  | nil => rfl
  | cons p ps =>
    rw [← Qe]
    unfold rustLines
    rw [splitNl_joinNl (by rw [Qe]; simp) h1, rustLinesAux_eq_self h2 h3]

theorem splitNl_joinNl_append {B : List (List Char)} {P : List Char} (hne : B ≠ [])
    (h1 : ∀ l ∈ B, '\n' ∉ l) :
    splitNl (joinNl B ++ '\n' :: P) = B ++ splitNl P := by
  induction B with
  | nil => exact absurd rfl hne
  | cons b B ih =>
    cases B with
    | nil =>
      rw [show joinNl [b] = b from rfl, splitNl_append (h1 b (List.mem_cons_self b []))]
      rfl
    | cons b' B' =>
      rw [joinNl_cons (by simp), List.append_assoc, List.cons_append,
        splitNl_append (h1 b (List.mem_cons_self b (b' :: B'))),
        ih (by simp) (fun l hl => h1 l (List.mem_cons_of_mem b hl))]
      rfl

theorem rustLines_block_append {B : List (List Char)} {P : List Char} (hne : B ≠ [])
    (h1 : ∀ l ∈ B, '\n' ∉ l) (h2 : ∀ l ∈ B, stripCr l = l) :
    rustLines (joinNl B ++ '\n' :: P) = B ++ rustLines P := by
  unfold rustLines
  rw [splitNl_joinNl_append hne h1, rustLinesAux_append _ _ (splitNl_ne_nil P)]
  congr 1
  rw [List.map_congr_left h2]
  exact List.map_id B

theorem not_newline_stripCr {p : List Char} (h : '\n' ∉ p) : '\n' ∉ stripCr p := by
  unfold stripCr
  split
  · exact fun hm => h ((List.dropLast_sublist p).subset hm)
  · exact h

theorem rustLinesAux_no_newline {Q : List (List Char)} (hQ : ∀ p ∈ Q, '\n' ∉ p) :
    ∀ l ∈ rustLinesAux Q, '\n' ∉ l := by
  induction Q with
  | nil => simp [rustLinesAux]
  | cons q Q ih =>
    cases Q with
    | nil =>
      intro l hl
      rw [rustLinesAux] at hl
      split at hl
      · simp at hl
      · rw [List.mem_singleton] at hl
        subst hl
        exact hQ l (List.mem_cons_self l [])
    | cons q' Q' =>
      intro l hl
      rcases List.mem_cons.mp hl with h | h
      · subst h
        exact not_newline_stripCr (hQ q (List.mem_cons_self q (q' :: Q')))
      · exact ih (fun p hp => hQ p (List.mem_cons_of_mem q hp)) l h

theorem mem_rustLines_not_newline {s l : List Char} (h : l ∈ rustLines s) : '\n' ∉ l :=
  rustLinesAux_no_newline (fun _ hp => mem_splitNl_not_newline hp) l h

/-! ### Lemmas about the `filter_dirscribe_sections` scan -/

theorem fdsGo_keep (R : List (List Char)) : ∀ (i : Nat) (prev : Option (List Char)),
    2 ≤ i → fdsGo true i prev false R = R := by
  induction R with
  | nil => intro i prev _; cases prev <;> rfl
  | cons cur rest ih =>
    intro i prev hi
    have h3 : ¬ (i + 1 < 3) := by omega
    have hb1 : (match rest.head? with
        | some n => decide (i + 1 < 3) && containsSub sentinelOpen n
        | none => false) = false := by
      cases rest.head? <;> simp [h3]
    have htail : fdsGo true (i + 1) (some cur) false rest = rest :=
      ih (i + 1) (some cur) (by omega)
    cases prev with
    | none =>
      rw [fdsGo.eq_3]
      simp [hb1, htail]
    | some p =>
      rw [fdsGo.eq_2]
      simp [hb1, htail]

theorem fdsGo_dropBlock : ∀ (mids : List (List Char)) (i : Nat) (prev : List Char)
    (dc lastLine : List Char) (R : List (List Char)),
    1 ≤ i →
    containsSub sentinelClose prev = false →
    (∀ l ∈ mids, containsSub sentinelClose l = false) →
    containsSub sentinelClose dc = true →
    fdsGo true i (some prev) true (mids ++ dc :: lastLine :: R) = R := by
  intro mids
  induction mids with
  | nil =>
    intro i prev dc lastLine R hi hprev _ hdc
    have step2 : fdsGo true (i + 1) (some dc) true (lastLine :: R) = R := by
      have h3 : ¬ (i + 1 + 1 < 3) := by omega
      have hb1 : (match R.head? with
          | some n => decide (i + 1 + 1 < 3) && containsSub sentinelOpen n
          | none => false) = false := by
        cases R.head? <;> simp [h3]
      rw [fdsGo.eq_2, if_neg (by rw [hb1]; exact Bool.false_ne_true),
        if_pos (by simp [hdc]), fdsGo_keep R (i + 1 + 1) (some lastLine) (by omega)]
      rfl
    rw [List.nil_append, fdsGo.eq_2]
    by_cases hb : (match (lastLine :: R).head? with
        | some n => decide (i + 1 < 3) && containsSub sentinelOpen n
        | none => false) = true
    · rw [if_pos hb]
      simp [step2]
    · rw [if_neg hb, if_neg (by simp [hprev])]
      simp [step2]
  | cons a mids' ih =>
    intro i prev dc lastLine R hi hprev hmids hdc
    have ha : containsSub sentinelClose a = false :=
      hmids a (List.mem_cons_self a mids')
    have cont : fdsGo true (i + 1) (some a) true (mids' ++ dc :: lastLine :: R) = R :=
      ih (i + 1) a dc lastLine R (by omega) ha
        (fun l hl => hmids l (List.mem_cons_of_mem a hl)) hdc
    rw [List.cons_append, fdsGo.eq_2]
    by_cases hb : (match (mids' ++ dc :: lastLine :: R).head? with
        | some n => decide (i + 1 < 3) && containsSub sentinelOpen n
        | none => false) = true
    · rw [if_pos hb]
      simp [cont]
    · rw [if_neg hb, if_neg (by simp [hprev])]
      simp [cont]

theorem fdsGo_block (b0 b1 : List Char) (mids : List (List Char)) (dc lastLine : List Char)
    (R : List (List Char))
    (hopen : containsSub sentinelOpen b1 = true)
    (h0 : containsSub sentinelClose b0 = false)
    (h1 : containsSub sentinelClose b1 = false)
    (hm : ∀ l ∈ mids, containsSub sentinelClose l = false)
    (hdc : containsSub sentinelClose dc = true) :
    fdsGo true 0 none false ((b0 :: b1 :: mids) ++ dc :: lastLine :: R) = R := by
  rw [List.cons_append, List.cons_append, fdsGo.eq_3, if_pos (by simp [hopen])]
  have hshape : b1 :: (mids ++ dc :: lastLine :: R) = (b1 :: mids) ++ dc :: lastLine :: R := by
    rw [List.cons_append]
  rw [hshape, fdsGo_dropBlock (b1 :: mids) 1 b0 dc lastLine R (by omega) h0
    (fun l hl => by
      rcases List.mem_cons.mp hl with h | h
      · subst h; exact h1
      · exact hm l h) hdc]
  simp

theorem fdsGo_subset : ∀ (ls : List (List Char)) (e : Bool) (i : Nat)
    (prev : Option (List Char)) (b : Bool) (x : List Char),
    x ∈ fdsGo e i prev b ls → x ∈ ls := by
  intro ls
  induction ls with
  | nil => intro e i prev b x hx; rw [fdsGo.eq_1] at hx; simp at hx
  | cons cur rest ih =>
    intro e i prev b x hx
    have hsplit : ∀ (ys : List (List Char)) (b' : Bool), (∀ z ∈ ys, z = cur) →
        x ∈ ys ++ fdsGo e (i + 1) (some cur) b' rest → x ∈ cur :: rest := by
      intro ys b' hys hmem
      rcases List.mem_append.mp hmem with h | h
      · rw [hys x h]; exact List.mem_cons_self cur rest
      · exact List.mem_cons_of_mem cur (ih e (i + 1) (some cur) b' x h)
    cases prev with
    | none =>
      rw [fdsGo.eq_3] at hx
      split at hx
      · exact hsplit _ _ (fun z hz => by
          split at hz
          · exact absurd hz (List.not_mem_nil z)
          · exact List.mem_singleton.mp hz) hx
      · split at hx
        · exact hsplit _ _ (fun z hz => by
            split at hz
            · exact absurd hz (List.not_mem_nil z)
            · exact List.mem_singleton.mp hz) hx
        · exact hsplit _ _ (fun z hz => by
            repeat' split at hz
            all_goals first
            | exact List.mem_singleton.mp hz
            | exact absurd hz (List.not_mem_nil z)) hx
    | some p =>
      rw [fdsGo.eq_2] at hx
      split at hx
      · exact hsplit _ _ (fun z hz => by
          split at hz
          · exact absurd hz (List.not_mem_nil z)
          · exact List.mem_singleton.mp hz) hx
      · split at hx
        · exact hsplit _ _ (fun z hz => by
            split at hz
            · exact absurd hz (List.not_mem_nil z)
            · exact List.mem_singleton.mp hz) hx
        · exact hsplit _ _ (fun z hz => by
            repeat' split at hz
            all_goals first
            | exact List.mem_singleton.mp hz
            | exact absurd hz (List.not_mem_nil z)) hx

theorem filter_dirscribe_sections_eq (c : String) (e : Bool) :
    filter_dirscribe_sections c e =
      String.mk (joinNl (fdsGo e 0 none false (rustLines c.data))) := by
  unfold filter_dirscribe_sections
  by_cases h : (rustLines c.data).isEmpty
  · rw [if_pos h, List.isEmpty_iff.mp h]
    rfl
  · rw [if_neg h]

/-! ### Claim theorems -/

/-- Claim C3: under the line-mode contract `("#", "single line")` for
extension `sh`, `check_summary` accepts the reply
`"#\n# [DIRSCRIBE]\nsummary\n# [/DIRSCRIBE]\n#"` and rejects the same reply
with the trailing `"#"` line missing. -/
theorem check_summary_sh_line_mode :
    check_summary "script.sh" "#\n# [DIRSCRIBE]\nsummary\n# [/DIRSCRIBE]\n#"
      [("sh", ("#", "single line"))] = true ∧
    check_summary "script.sh" "#\n# [DIRSCRIBE]\nsummary\n# [/DIRSCRIBE]"
      [("sh", ("#", "single line"))] = false := by
  decide

/-- Claim C4: when the file's extension has no entry in the comment-contract
map, `check_summary` returns `false` for every summary text; no fallback
heuristic is applied inside the validator. -/
theorem check_summary_unknown_extension_false (p s : String) (m : SuffixMap)
    (h : mapGet m (extensionStr p) = none) : check_summary p s m = false := by
  unfold check_summary
  rw [h]

/-- Witness for C4 at a concrete extension with no map entry. -/
theorem check_summary_unknown_extension_false_witness :
    mapGet [("sh", ("#", "single line"))] (extensionStr "file.zz") = none ∧
    check_summary "file.zz" "# whatever" [("sh", ("#", "single line"))] = false :=
  ⟨by decide,
    check_summary_unknown_extension_false "file.zz" "# whatever"
      [("sh", ("#", "single line"))] (by decide)⟩

/-- Claim C5: `write_summary_to_file` checks its precondition before touching
the file; when neither `check_summary` nor the looser prefix heuristic holds
it returns the descriptive error and the file content is unchanged. -/
theorem write_summary_precondition_rejects (ts p su : String) (m : SuffixMap)
    (content : String)
    (h1 : check_summary p su m = false) (h2 : check_prefix su = false) :
    write_summary_to_file ts p su m content = .err writeErrMsg ∧
    fileAfter (write_summary_to_file ts p su m content) content = content := by
  have hw : write_summary_to_file ts p su m content = .err writeErrMsg := by
    unfold write_summary_to_file
    rw [h1, h2]
    rfl
  exact ⟨hw, by rw [hw]; rfl⟩

/-- Witness for C5 at a concrete rejected summary. -/
theorem write_summary_precondition_rejects_witness :
    check_summary "a.py" "x" [] = false ∧ check_prefix "x" = false ∧
    write_summary_to_file "t" "a.py" "x" [] "body" = .err writeErrMsg ∧
    fileAfter (write_summary_to_file "t" "a.py" "x" [] "body") "body" = "body" :=
  ⟨by decide, by decide,
    (write_summary_precondition_rejects "t" "a.py" "x" [] "body" (by decide) (by decide)).1,
    (write_summary_precondition_rejects "t" "a.py" "x" [] "body" (by decide) (by decide)).2⟩

/-- Claim C9: a summary with fewer than two lines that passes the prefix
heuristic — such as the single line `"# x"` — makes `write_summary_to_file`
reach the `lines.len() - 2` underflow in `insert_timestamp`, so the call
panics instead of returning an error. -/
theorem write_summary_short_summary_underflow :
    check_prefix "# x" = true ∧
    ∀ (ts p : String) (m : SuffixMap) (content : String),
      write_summary_to_file ts p "# x" m content = .panicked := by
  refine ⟨by decide, ?_⟩
  intro ts p m content
  have hnone : insert_timestamp ts "# x" = none := by
    unfold insert_timestamp
    rw [if_neg (by decide : ¬ (2 ≤ (rustLines (String.data "# x")).length))]
  unfold write_summary_to_file
  rw [show check_prefix "# x" = true from by decide, Bool.or_true, if_pos rfl]
  simp only [hnone]

/-- Claim C2 counterexample: the summary `"# a\n# b\n# c\n# d"` is accepted
by the precondition (prefix heuristic) but carries no sentinel lines, so a
second application with the same timestamp stacks a second block on top of
the first instead of replacing it: the two results differ beyond the
timestamp line. -/
theorem write_summary_not_idempotent :
    write_summary_to_file "T" "a.py" "# a\n# b\n# c\n# d" [] "x" =
      .ok "# a\n# b\nT\n# c\n# d\nx" ∧
    write_summary_to_file "T" "a.py" "# a\n# b\n# c\n# d" []
        "# a\n# b\nT\n# c\n# d\nx" =
      .ok "# a\n# b\nT\n# c\n# d\n# a\n# b\nT\n# c\n# d\nx" ∧
    ("# a\n# b\nT\n# c\n# d\n# a\n# b\nT\n# c\n# d\nx" : String) ≠
      "# a\n# b\nT\n# c\n# d\nx" := by
  decide

/-- Claim C8 counterexample: `insert_timestamp` places the timestamp before
the second-to-last line (in front of the `[/DIRSCRIBE]` sentinel line), not
directly before the last line of the summary block as claimed. -/
theorem insert_timestamp_position :
    insert_timestamp "T" "#\n# [DIRSCRIBE]\nsum\n# [/DIRSCRIBE]\n#" =
      some "#\n# [DIRSCRIBE]\nsum\nT\n# [/DIRSCRIBE]\n#" ∧
    insert_timestamp "T" "#\n# [DIRSCRIBE]\nsum\n# [/DIRSCRIBE]\n#" ≠
      some "#\n# [DIRSCRIBE]\nsum\n# [/DIRSCRIBE]\nT\n#" := by
  decide

/-- Claim C10: an HTTP-success body that decodes into the Deepseek schema
with an empty `choices` array (or the Anthropic schema with an empty
`content` array) makes `parse_response` panic from indexing position 0
instead of returning a decode error, so the reply is not turned into a
retryable `Err`. -/
theorem parse_response_empty_array_panics :
    (∀ u : DeepseekUsage, parse_response_deepseek (some ⟨[], u⟩) = .indexPanic ∧
      parse_response_deepseek (some ⟨[], u⟩) ≠ .decodeError) ∧
    (∀ u : AnthropicUsage, parse_response_anthropic (some ⟨[], u⟩) = .indexPanic ∧
      parse_response_anthropic (some ⟨[], u⟩) ≠ .decodeError) := by
  constructor
  · intro u
    exact ⟨rfl, fun h => ParseResult.noConfusion h⟩
  · intro u
    exact ⟨rfl, fun h => ParseResult.noConfusion h⟩

/-- Claim C7: with a constructed client, `get_summaries` returns exactly one
slot per input file, in input order, each slot holding either that file's
summary or the formatted error string; only a client-construction error
makes the call itself fail. -/
theorem get_summaries_order_and_errors (co : String → Except String String)
    (files : List String) :
    (∃ rs, get_summaries (.ok ()) co files = .ok rs ∧ rs.length = files.length ∧
      ∀ i : Nat, rs[i]? = (files[i]?).map (fun fp =>
        match co fp with
        | .ok content => content
        | .error e => "Error: " ++ ("Error processing file " ++ fp ++ ": " ++ e))) ∧
    (∀ e, get_summaries (.error e) co files = .error e) := by
  refine ⟨⟨files.map (fun fp =>
    match co fp with
    | .ok content => content
    | .error e => "Error: " ++ ("Error processing file " ++ fp ++ ": " ++ e)),
    rfl, List.length_map _ _, ?_⟩, fun e => rfl⟩
  intro i
  exact List.getElem?_map _ files i


/-- Helper for C1: under an environment whose every response is an HTTP
success that decodes but fails validation, the retry loop from any counter
state runs `maxRetries + 1 - retries` attempts with doubling backoff sleeps
and ends in the invalid-summary fatal error. -/
theorem chatGo_always_invalid (status : Nat → Nat) (text : Nat → String)
    (parse : Nat → Except String String) (m : SuffixMap) (fp : String) (maxRetries : Nat)
    (hsucc : ∀ k, isSuccessStatus (status k) = true)
    (hparse : ∀ k, ∃ c, parse k = .ok c ∧ check_summary fp c m = false) :
    ∀ (j retries n backoff : Nat), maxRetries - retries = j → retries ≤ maxRetries →
      chatGo status text parse m false fp maxRetries n retries backoff =
        ⟨maxRetries + 1 - retries,
          (List.range (maxRetries - retries)).map (fun i => backoff * 2 ^ i),
          .error .maxRetriesInvalidSummary⟩ := by
  intro j
  induction j with
  | zero =>
    intro retries n backoff hj hle
    have heq : retries = maxRetries := by omega
    subst heq
    obtain ⟨c, hc, hval⟩ := hparse n
    rw [chatGo, hsucc n, hc]
    simp [hval, Nat.sub_self]
  | succ j ih =>
    intro retries n backoff hj hle
    obtain ⟨c, hc, hval⟩ := hparse n
    rw [chatGo, hsucc n, hc]
    simp only [if_pos rfl, hval, Bool.false_or, Bool.or_self, if_neg Bool.false_ne_true,
      dif_neg (by omega : ¬ maxRetries ≤ retries)]
    rw [ih (retries + 1) (n + 1) (backoff * 2) (by omega) (by omega)]
    have h2 : maxRetries - retries = (maxRetries - (retries + 1)) + 1 := by omega
    have h1 : maxRetries + 1 - (retries + 1) + 1 = maxRetries + 1 - retries := by omega
    have h3 : backoff :: List.map (fun i => backoff * 2 * 2 ^ i)
        (List.range (maxRetries - (retries + 1))) =
        List.map (fun i => backoff * 2 ^ i) (List.range (maxRetries - retries)) := by
      rw [h2, List.range_succ_eq_map, List.map_cons, List.map_map]
      congr 1
      · simp
      · exact List.map_congr_left (fun i _ => by
          simp [Function.comp]
          ring)
    dsimp only
    rw [ChatRun.mk.injEq]
    exact ⟨h1, h3, rfl⟩

/-- Claim C1: with diff mode off and every provider response an HTTP success
whose body decodes but fails contract validation, `chat` performs exactly
`maxRetries + 1` request attempts (7 for the source's `MAX_RETRIES = 6`),
sleeping before each retry with backoffs starting at
`INITIAL_BACKOFF_MS = 1000` ms and doubling each attempt, and then returns a
fatal error. -/
theorem chat_contract_violation_exhausts_retries (status : Nat → Nat) (text : Nat → String)
    (parse : Nat → Except String String) (m : SuffixMap) (fp : String) (maxRetries : Nat)
    (hsucc : ∀ k, isSuccessStatus (status k) = true)
    (hparse : ∀ k, ∃ c, parse k = .ok c ∧ check_summary fp c m = false) :
    chat status text parse m false fp maxRetries =
      ⟨maxRetries + 1,
        (List.range maxRetries).map (fun i => INITIAL_BACKOFF_MS * 2 ^ i),
        .error .maxRetriesInvalidSummary⟩ ∧
    MAX_RETRIES + 1 = 7 := by
  refine ⟨?_, rfl⟩
  have h := chatGo_always_invalid status text parse m fp maxRetries hsucc hparse
    maxRetries 0 0 INITIAL_BACKOFF_MS (by omega) (by omega)
  simpa [chat] using h

/-- Witness for C1 at a concrete always-invalid environment. -/
theorem chat_contract_violation_exhausts_retries_witness :
    chat (fun _ => 200) (fun _ => "") (fun _ => Except.ok "bad") [] false "a.py" 2 =
      ⟨2 + 1, (List.range 2).map (fun i => INITIAL_BACKOFF_MS * 2 ^ i),
        .error .maxRetriesInvalidSummary⟩ ∧
    MAX_RETRIES + 1 = 7 :=
  chat_contract_violation_exhausts_retries (fun _ => 200) (fun _ => "")
    (fun _ => Except.ok "bad") [] "a.py" 2 (fun _ => rfl)
    (fun _ => ⟨"bad", rfl, by decide⟩)

/-- Claim C6: a non-success HTTP status that is neither 5xx nor 429 — in
particular any 4xx client error other than 429 — makes `chat` bail fatally
at once, with a single request and no backoff sleep, while a 429 or 5xx
status is retried: with such a first response and a valid second one the
loop returns success after exactly one backoff sleep. -/
theorem chat_status_classification :
    (∀ (status : Nat → Nat) (text : Nat → String) (parse : Nat → Except String String)
      (m : SuffixMap) (df : Bool) (fp : String) (mr n r b : Nat),
      400 ≤ status n → status n < 500 → status n ≠ 429 →
      chatGo status text parse m df fp mr n r b =
        ⟨1, [], .error (.nonRetriable (text n))⟩) ∧
    (∀ (status : Nat → Nat) (text : Nat → String) (parse : Nat → Except String String)
      (m : SuffixMap) (df : Bool) (fp : String) (mr n r b : Nat) (c : String),
      (status n = 429 ∨ (500 ≤ status n ∧ status n < 600)) →
      isSuccessStatus (status (n + 1)) = true →
      parse (n + 1) = .ok c →
      (df || check_summary fp c m) = true →
      r < mr →
      chatGo status text parse m df fp mr n r b = ⟨2, [b], .ok c⟩) := by
  constructor
  · intro status text parse m df fp mr n r b h4 h4b h429
    rw [chatGo]
    have h1 : isSuccessStatus (status n) = false := by simp [isSuccessStatus]; omega
    have h2 : isServerErrorStatus (status n) = false := by simp [isServerErrorStatus]; omega
    simp [h1, h2, h429]
  · intro status text parse m df fp mr n r b c hst hok hpar hval hlt
    have hinner : chatGo status text parse m df fp mr (n + 1) (r + 1) (b * 2) =
        ⟨1, [], .ok c⟩ := by
      rw [chatGo, hok, hpar]
      simp [hval]
    have hns : isSuccessStatus (status n) = false := by
      rcases hst with h | ⟨ha, hb⟩ <;> simp [isSuccessStatus] <;> omega
    rcases hst with h | ⟨ha, hb⟩
    · rw [chatGo, hns]
      simp only [if_neg Bool.false_ne_true]
      rw [if_neg (fun hcon => hcon.2 h), dif_neg (by omega : ¬ mr ≤ r), hinner]
    · have hsrv : isServerErrorStatus (status n) = true := by
        simp [isServerErrorStatus]; omega
      rw [chatGo, hns]
      simp only [if_neg Bool.false_ne_true]
      rw [if_neg (fun hcon => by rw [hsrv] at hcon; simp at hcon),
        dif_neg (by omega : ¬ mr ≤ r), hinner]

/-- Witness for C6: a 403 fails at once; a 429 followed by a valid 200
succeeds after one sleep. -/
theorem chat_status_classification_witness :
    chatGo (fun _ => 403) (fun _ => "forbidden") (fun _ => Except.error "x")
      [] false "a.py" 6 0 0 1000 =
      ⟨1, [], .error (.nonRetriable "forbidden")⟩ ∧
    chatGo (fun k => if k = 0 then 429 else 200) (fun _ => "")
      (fun _ => Except.ok "s") [] true "a.py" 6 0 0 1000 =
      ⟨2, [1000], .ok "s"⟩ :=
  ⟨chat_status_classification.1 (fun _ => 403) (fun _ => "forbidden")
      (fun _ => Except.error "x") [] false "a.py" 6 0 0 1000
      (by decide) (by decide) (by decide),
    chat_status_classification.2 (fun k => if k = 0 then 429 else 200) (fun _ => "")
      (fun _ => Except.ok "s") [] true "a.py" 6 0 0 1000 "s"
      (Or.inl rfl) rfl rfl rfl (by decide)⟩


/-- Dropping fewer elements than the length preserves the last element. -/
theorem getLast?_drop {α : Type} : ∀ (l : List α) (n : Nat), n < l.length →
    (l.drop n).getLast? = l.getLast? := by
  intro l
  induction l with
  | nil => intro n h; simp at h
  | cons x xs ih =>
    intro n h
    cases n with
    | zero => rfl
    | succ n =>
      have h' : n < xs.length := by simpa using h
      cases xs with
      | nil => simp at h'
      | cons a as =>
        rw [List.drop_succ_cons, List.getLast?_cons_cons]
        exact ih n h'

/-- `Vec::insert(len - 2, x)` on a line list of shape
`s0 :: s1 :: mid ++ [sc, sl]` slots `x` in directly before `sc`. -/
theorem insertAt_into (x s0 s1 : List Char) (mid : List (List Char)) (sc sl : List Char) :
    insertAt ((s0 :: s1 :: (mid ++ [sc, sl])).length - 2) x (s0 :: s1 :: (mid ++ [sc, sl])) =
      s0 :: s1 :: (mid ++ [x, sc, sl]) := by
  have hlen : (s0 :: s1 :: (mid ++ [sc, sl])).length - 2 = mid.length + 2 := by
    simp only [List.length_cons, List.length_append, List.length_nil]
    omega
  have hsplit : s0 :: s1 :: (mid ++ [sc, sl]) = (s0 :: s1 :: mid) ++ [sc, sl] := by simp
  have hlen2 : mid.length + 2 = (s0 :: s1 :: mid).length := by simp
  rw [hlen]
  unfold insertAt
  rw [hsplit, hlen2, List.take_left, List.drop_left]
  simp

/-- Claim C8 (amended): for any summary with at least two lines (CR-free,
with a nonempty final line) and any newline-free timestamp,
`insert_timestamp` places the timestamp at index `len - 2` of the line list
— immediately before the second-to-last line, which for a contract-valid
summary is the `[/DIRSCRIBE]` sentinel line — not directly before the last
(closing delimiter) line. -/
theorem insert_timestamp_before_penultimate (ts su : String)
    (hlen : 2 ≤ (rustLines su.data).length)
    (hts1 : '\n' ∉ ts.data) (hts2 : stripCr ts.data = ts.data)
    (hstrip : ∀ l ∈ rustLines su.data, stripCr l = l)
    (hlast : (rustLines su.data).getLast? ≠ some []) :
    ∃ out, insert_timestamp ts su = some out ∧
      rustLines out.data =
        (rustLines su.data).take ((rustLines su.data).length - 2) ++
          ts.data :: (rustLines su.data).drop ((rustLines su.data).length - 2) := by
  refine ⟨String.mk (joinNl (insertAt ((rustLines su.data).length - 2) ts.data
    (rustLines su.data))), ?_, ?_⟩
  · unfold insert_timestamp
    rw [if_pos hlen]
  · show rustLines (joinNl (insertAt ((rustLines su.data).length - 2) ts.data
      (rustLines su.data))) = _
    unfold insertAt
    apply rustLines_joinNl
    · intro l hl
      rcases List.mem_append.mp hl with h | h
      · exact mem_rustLines_not_newline (List.take_subset _ _ h)
      · rcases List.mem_cons.mp h with h | h
        · subst h; exact hts1
        · exact mem_rustLines_not_newline (List.drop_subset _ _ h)
    · intro l hl
      rcases List.mem_append.mp hl with h | h
      · exact hstrip l (List.take_subset _ _ h)
      · rcases List.mem_cons.mp h with h | h
        · subst h; exact hts2
        · exact hstrip l (List.drop_subset _ _ h)
    · have hdlen : ((rustLines su.data).drop ((rustLines su.data).length - 2)).length =
          (rustLines su.data).length - ((rustLines su.data).length - 2) :=
        List.length_drop _ _
      have hdropne : (rustLines su.data).drop ((rustLines su.data).length - 2) ≠ [] := by
        intro he
        rw [he] at hdlen
        simp at hdlen
        omega
      rw [List.getLast?_append_of_ne_nil _ (by simp :
          ts.data :: (rustLines su.data).drop ((rustLines su.data).length - 2) ≠ []),
        show ts.data :: (rustLines su.data).drop ((rustLines su.data).length - 2) =
          [ts.data] ++ (rustLines su.data).drop ((rustLines su.data).length - 2) from rfl,
        List.getLast?_append_of_ne_nil _ hdropne,
        getLast?_drop _ _ (by omega)]
      exact hlast

/-- Witness for the amended C8 at a concrete line-mode summary. -/
theorem insert_timestamp_before_penultimate_witness :
    ∃ out, insert_timestamp "T" "#\n# [DIRSCRIBE]\nsum\n# [/DIRSCRIBE]\n#" = some out ∧
      rustLines out.data =
        (rustLines ("#\n# [DIRSCRIBE]\nsum\n# [/DIRSCRIBE]\n#" : String).data).take 3 ++
          "T".data :: (rustLines ("#\n# [DIRSCRIBE]\nsum\n# [/DIRSCRIBE]\n#" : String).data).drop 3 :=
  insert_timestamp_before_penultimate "T" "#\n# [DIRSCRIBE]\nsum\n# [/DIRSCRIBE]\n#"
    (by decide) (by decide) (by decide) (by decide) (by decide)


/-- Claim C2 (amended): `write_summary_to_file` is idempotent modulo the
timestamp line for summaries of the shape the contract guarantees — line 1
carries the `[DIRSCRIBE]` sentinel, the second-to-last line carries
`[/DIRSCRIBE]`, no earlier line carries `[/DIRSCRIBE]` — with CR-free lines,
newline-free sentinel-free timestamps, and a stripped remainder that does
not end in an empty line: both applications succeed and the two resulting
files consist of the identical block around the two timestamps followed by
the identical remainder. -/
theorem write_summary_idempotent_amended
    (ts1 ts2 p su content : String) (m : SuffixMap)
    (s0 s1 : List Char) (mid : List (List Char)) (sc sl : List Char)
    (hdecomp : rustLines su.data = s0 :: s1 :: (mid ++ [sc, sl]))
    (hpre : (check_summary p su m || check_prefix su) = true)
    (hopen : containsSub sentinelOpen s1 = true)
    (hs0 : containsSub sentinelClose s0 = false)
    (hs1 : containsSub sentinelClose s1 = false)
    (hmid : ∀ l ∈ mid, containsSub sentinelClose l = false)
    (hsc : containsSub sentinelClose sc = true)
    (hstrip : ∀ l ∈ rustLines su.data, stripCr l = l)
    (ht1a : '\n' ∉ ts1.data) (ht1b : stripCr ts1.data = ts1.data)
    (ht1c : containsSub sentinelClose ts1.data = false)
    (ht2a : '\n' ∉ ts2.data) (ht2b : stripCr ts2.data = ts2.data)
    (hcstrip : ∀ l ∈ rustLines content.data, stripCr l = l)
    (hQlast : (fdsGo true 0 none false (rustLines content.data)).getLast? ≠ some []) :
    ∃ w1 w2,
      write_summary_to_file ts1 p su m content = .ok w1 ∧
      write_summary_to_file ts2 p su m w1 = .ok w2 ∧
      rustLines w1.data =
        (s0 :: s1 :: (mid ++ [ts1.data, sc, sl])) ++
          fdsGo true 0 none false (rustLines content.data) ∧
      rustLines w2.data =
        (s0 :: s1 :: (mid ++ [ts2.data, sc, sl])) ++
          fdsGo true 0 none false (rustLines content.data) := by
  set Q := fdsGo true 0 none false (rustLines content.data) with hQdef
  have hQsub : ∀ l ∈ Q, l ∈ rustLines content.data :=
    fun l hl => fdsGo_subset _ _ _ _ _ _ hl
  have hQnl : ∀ l ∈ Q, '\n' ∉ l := fun l hl => mem_rustLines_not_newline (hQsub l hl)
  have hQst : ∀ l ∈ Q, stripCr l = l := fun l hl => hcstrip l (hQsub l hl)
  have hQjoin : rustLines (joinNl Q) = Q := rustLines_joinNl hQnl hQst hQlast
  have hlen2 : 2 ≤ (rustLines su.data).length := by rw [hdecomp]; simp
  have hit : ∀ ts : String, insert_timestamp ts su =
      some (String.mk (joinNl (s0 :: s1 :: (mid ++ [ts.data, sc, sl])))) := by
    intro ts
    unfold insert_timestamp
    rw [if_pos hlen2, hdecomp, insertAt_into]
  have hP : filter_dirscribe_sections content true = String.mk (joinNl Q) := by
    rw [filter_dirscribe_sections_eq]
  have hmemB : ∀ (t : List Char), ∀ l ∈ s0 :: s1 :: (mid ++ [t, sc, sl]),
      l = t ∨ l ∈ rustLines su.data := by
    intro t l hl
    rw [hdecomp]
    simp only [List.mem_cons, List.mem_append, List.mem_singleton] at hl ⊢
    tauto
  have hBnl : ∀ (ts : String), '\n' ∉ ts.data →
      ∀ l ∈ s0 :: s1 :: (mid ++ [ts.data, sc, sl]), '\n' ∉ l := by
    intro ts hts l hl
    rcases hmemB ts.data l hl with h | h
    · subst h; exact hts
    · exact mem_rustLines_not_newline h
  have hBst : ∀ (ts : String), stripCr ts.data = ts.data →
      ∀ l ∈ s0 :: s1 :: (mid ++ [ts.data, sc, sl]), stripCr l = l := by
    intro ts hts l hl
    rcases hmemB ts.data l hl with h | h
    · subst h; exact hts
    · exact hstrip l h
  have hWdata : ∀ (ts : String),
      (String.mk (joinNl (s0 :: s1 :: (mid ++ [ts.data, sc, sl]))) ++ "\n" ++
        String.mk (joinNl Q)).data =
      joinNl (s0 :: s1 :: (mid ++ [ts.data, sc, sl])) ++ '\n' :: joinNl Q := by
    intro ts
    rw [String.data_append, String.data_append]
    simp
  have hrw : ∀ (ts : String), '\n' ∉ ts.data → stripCr ts.data = ts.data →
      rustLines ((String.mk (joinNl (s0 :: s1 :: (mid ++ [ts.data, sc, sl]))) ++ "\n" ++
        String.mk (joinNl Q)).data) =
      (s0 :: s1 :: (mid ++ [ts.data, sc, sl])) ++ Q := by
    intro ts hta htb
    rw [hWdata ts, rustLines_block_append (by simp) (hBnl ts hta) (hBst ts htb), hQjoin]
  have hw1 : write_summary_to_file ts1 p su m content =
      .ok (String.mk (joinNl (s0 :: s1 :: (mid ++ [ts1.data, sc, sl]))) ++ "\n" ++
        String.mk (joinNl Q)) := by
    unfold write_summary_to_file
    rw [if_pos hpre]
    simp only [hit ts1, hP]
  have hfds2 : fdsGo true 0 none false
      ((s0 :: s1 :: (mid ++ [ts1.data, sc, sl])) ++ Q) = Q := by
    have hsh : (s0 :: s1 :: (mid ++ [ts1.data, sc, sl])) ++ Q =
        (s0 :: s1 :: (mid ++ [ts1.data])) ++ sc :: sl :: Q := by simp
    rw [hsh]
    exact fdsGo_block s0 s1 (mid ++ [ts1.data]) sc sl Q hopen hs0 hs1
      (fun l hl => by
        rcases List.mem_append.mp hl with h | h
        · exact hmid l h
        · rw [List.mem_singleton.mp h]; exact ht1c) hsc
  have hP2 : filter_dirscribe_sections
      (String.mk (joinNl (s0 :: s1 :: (mid ++ [ts1.data, sc, sl]))) ++ "\n" ++
        String.mk (joinNl Q)) true = String.mk (joinNl Q) := by
    rw [filter_dirscribe_sections_eq, hrw ts1 ht1a ht1b, hfds2]
  have hw2 : write_summary_to_file ts2 p su m
      (String.mk (joinNl (s0 :: s1 :: (mid ++ [ts1.data, sc, sl]))) ++ "\n" ++
        String.mk (joinNl Q)) =
      .ok (String.mk (joinNl (s0 :: s1 :: (mid ++ [ts2.data, sc, sl]))) ++ "\n" ++
        String.mk (joinNl Q)) := by
    unfold write_summary_to_file
    rw [if_pos hpre]
    simp only [hit ts2, hP2]
  exact ⟨_, _, hw1, hw2, hrw ts1 ht1a ht1b, hrw ts2 ht2a ht2b⟩

/-- Witness for the amended C2 at a concrete line-mode summary and file. -/
theorem write_summary_idempotent_amended_witness :
    ∃ w1 w2,
      write_summary_to_file "T1" "a.sh" "#\n# [DIRSCRIBE]\nsum\n# [/DIRSCRIBE]\n#"
        [("sh", ("#", "single line"))] "x\ny" = .ok w1 ∧
      write_summary_to_file "T2" "a.sh" "#\n# [DIRSCRIBE]\nsum\n# [/DIRSCRIBE]\n#"
        [("sh", ("#", "single line"))] w1 = .ok w2 ∧
      rustLines w1.data =
        ("#".data :: "# [DIRSCRIBE]".data ::
          (["sum".data] ++ ["T1".data, "# [/DIRSCRIBE]".data, "#".data])) ++
          fdsGo true 0 none false (rustLines ("x\ny" : String).data) ∧
      rustLines w2.data =
        ("#".data :: "# [DIRSCRIBE]".data ::
          (["sum".data] ++ ["T2".data, "# [/DIRSCRIBE]".data, "#".data])) ++
          fdsGo true 0 none false (rustLines ("x\ny" : String).data) :=
  write_summary_idempotent_amended "T1" "T2" "a.sh"
    "#\n# [DIRSCRIBE]\nsum\n# [/DIRSCRIBE]\n#" "x\ny" [("sh", ("#", "single line"))]
    "#".data "# [DIRSCRIBE]".data ["sum".data] "# [/DIRSCRIBE]".data "#".data
    (by decide) (by decide) (by decide) (by decide) (by decide) (by decide) (by decide)
    (by decide) (by decide) (by decide) (by decide) (by decide) (by decide) (by decide)
    (by decide)


end Dirscribe
